import Mathlib

/-!
Verification of the securekit stream/file encryption toolkit.

Bytes are modelled as natural numbers (every value produced by `^^^` on
inputs < 256 stays < 256; no claim here depends on the bound, so no `% 256`
is needed), byte sequences as `List Nat`, and streams as the full list of
bytes the stream will ever deliver.  The cryptographic primitives that the
sources take from the standard library (the AES-CTR keystream, the HMAC
digest, SHA-256, RC4, GCM, base64) are abstracted as function parameters:
for a fixed key pair and IV the CTR keystream is some fixed byte-per-offset
function `ks`, and the incremental HMAC accumulator is determined by the
list of bytes written to it, so its finalized digest is `hm` applied to
that list.
-/

/-! ### Constants of src/kit/aes/ctr.go -/

def BUFFER_SIZE : Nat := 16 * 1024

def IV_SIZE : Nat := 16

def V1 : Nat := 1

def HMAC_SIZE : Nat := 64

/-- CTR keystream for a fixed cipher key and IV: byte at each offset. -/
abbrev Keystream := Nat → Nat

/-- Finalized HMAC digest as a function of all bytes fed to the accumulator. -/
abbrev Hmac := List Nat → List Nat

/-- XORKeyStream over a byte list starting at keystream offset `off`
(`ctr.XORKeyStream` in ctr.go, with the running block counter abstracted
into the offset). -/
def ctrXor (ks : Keystream) : Nat → List Nat → List Nat
  | _, [] => []
  | off, b :: bs => (b ^^^ ks off) :: ctrXor ks (off + 1) bs

theorem ctrXor_nil (ks : Keystream) (off : Nat) : ctrXor ks off [] = [] := rfl

theorem ctrXor_length (ks : Keystream) : ∀ (off : Nat) (l : List Nat),
    (ctrXor ks off l).length = l.length := by
  intro off l
  induction l generalizing off with
  | nil => rfl
  | cons b bs ih => simp [ctrXor, ih]

theorem ctrXor_append (ks : Keystream) : ∀ (off : Nat) (a b : List Nat),
    ctrXor ks off (a ++ b) = ctrXor ks off a ++ ctrXor ks (off + a.length) b := by
  intro off a b
  induction a generalizing off with
  | nil => simp [ctrXor]
  | cons x xs ih =>
      have harith : off + 1 + xs.length = off + (xs.length + 1) := by omega
      show (x ^^^ ks off) :: ctrXor ks (off + 1) (xs ++ b) = _
      rw [ih (off + 1), harith]
      rfl

theorem ctrXor_ctrXor (ks : Keystream) : ∀ (off : Nat) (l : List Nat),
    ctrXor ks off (ctrXor ks off l) = l := by
  intro off l
  induction l generalizing off with
  | nil => rfl
  | cons b bs ih => simp [ctrXor, ih, Nat.xor_cancel_right]

/-! ### AESCTREnc (src/kit/aes/ctr.go lines 22-66)

The output stream and the HMAC accumulator are carried as explicit state.
The Go source discards the result of every `Write` call (`out.Write`,
`w.Write`), so the writer model records, per write call, whether the
underlying writer failed (`failAt`); a failing call writes nothing (and,
for the `io.MultiWriter(out, hmac)`, skips the HMAC accumulator too, since
`MultiWriter` stops at the first failing writer), and the returned error is
dropped exactly as in the source. -/

structure EncState where
  out : List Nat
  hacc : List Nat
  calls : Nat
deriving DecidableEq

/-- One `out.Write(d)` call; the Bool result (the error) is discarded by the
callers in ctr.go. -/
def writeOut (failAt : Nat → Bool) (st : EncState) (d : List Nat) : EncState :=
  if failAt st.calls then { st with calls := st.calls + 1 }
  else { st with out := st.out ++ d, calls := st.calls + 1 }

/-- One `w.Write(d)` call on `io.MultiWriter(out, hmac)`: `out` first, then
the HMAC accumulator, which is skipped when the `out` write fails. -/
def writeMulti (failAt : Nat → Bool) (st : EncState) (d : List Nat) : EncState :=
  if failAt st.calls then { st with calls := st.calls + 1 }
  else { out := st.out ++ d, hacc := st.hacc ++ d, calls := st.calls + 1 }

/-- The read-encrypt-write loop of AESCTREnc: the reader delivers the
plaintext in chunks of at most BUFFER_SIZE bytes.  `fuel` is a structural
bound on the number of iterations; `p.length + 1` always suffices
(each iteration consumes a nonempty chunk), as `encLoopAux_noFail` shows. -/
def encLoopAux (ks : Keystream) (failAt : Nat → Bool) :
    Nat → Nat → List Nat → EncState → EncState
  | 0, _, _, st => st
  | fuel + 1, off, p, st =>
    if p.length = 0 then st
    else
      let chunk := p.take BUFFER_SIZE
      encLoopAux ks failAt fuel (off + chunk.length) (p.drop BUFFER_SIZE)
        (writeMulti failAt st (ctrXor ks off chunk))

inductive EncErr where
  | readFail
deriving DecidableEq

/-- AESCTREnc of ctr.go: write the version byte, write the IV through the
MultiWriter, stream the CTR-encrypted chunks, then write the finalized
HMAC digest.  The random IV is a parameter.  All write errors are
discarded, as in the source; with a pure list as input the reader never
fails, so the returned error is the source's final `return nil`. -/
def AESCTREnc (ks : Keystream) (hm : Hmac) (failAt : Nat → Bool) (iv p : List Nat) :
    EncState × Option EncErr :=
  let st0 : EncState := ⟨[], [], 0⟩
  let st1 := writeOut failAt st0 [V1]
  let st2 := writeMulti failAt st1 iv
  let st3 := encLoopAux ks failAt (p.length + 1) 0 p st2
  let st4 := writeOut failAt st3 (hm st3.hacc)
  (st4, none)

/-- Failure pattern of a writer that never fails. -/
def noFail : Nat → Bool := fun _ => false

/-- The byte stream a fully successful AESCTREnc writes to `out`. -/
def encOut (ks : Keystream) (hm : Hmac) (iv p : List Nat) : List Nat :=
  (AESCTREnc ks hm noFail iv p).1.out

/-! ### AESCTRDec (src/kit/aes/ctr.go lines 68-144) -/

inductive DecErr where
  | eofVersion
  | eofIV
  | notEnoughLeft
  | invalidHMAC
  | noFuel
deriving DecidableEq

inductive LoopRes where
  | ok : List Nat → List Nat → List Nat → LoopRes
  | err : DecErr → LoopRes
deriving DecidableEq

/-- The peek-then-consume loop of AESCTRDec over the remaining stream `r`:
`Peek(BUFFER_SIZE)` returns `io.EOF` exactly when fewer than BUFFER_SIZE
bytes remain.  On EOF with fewer than HMAC_SIZE bytes left the source
fails with "not enough left"; otherwise the trailing HMAC_SIZE bytes are
captured as the tag and everything before them is authenticated,
decrypted and written.  A non-EOF peek processes
`BUFFER_SIZE - HMAC_SIZE` bytes and loops.  Returns (ciphertext consumed,
plaintext written, captured tag).  `fuel` is a structural iteration
bound; `r.length + 1` always suffices (`decLoopAux_spec`). -/
def decLoopAux (ks : Keystream) : Nat → Nat → List Nat → LoopRes
  | 0, _, _ => .err .noFuel
  | fuel + 1, off, r =>
    if r.length < BUFFER_SIZE then
      if r.length < HMAC_SIZE then .err .notEnoughLeft
      else
        .ok (r.take (r.length - HMAC_SIZE))
          (ctrXor ks off (r.take (r.length - HMAC_SIZE)))
          (r.drop (r.length - HMAC_SIZE))
    else
      match decLoopAux ks fuel (off + (BUFFER_SIZE - HMAC_SIZE))
          (r.drop (BUFFER_SIZE - HMAC_SIZE)) with
      | .err e => .err e
      | .ok ct pt mac =>
          .ok (r.take (BUFFER_SIZE - HMAC_SIZE) ++ ct)
            (ctrXor ks off (r.take (BUFFER_SIZE - HMAC_SIZE)) ++ pt) mac

inductive DecRes where
  | ok : List Nat → DecRes
  | err : DecErr → DecRes
deriving DecidableEq

/-- AESCTRDec of ctr.go on the full input stream `s`: read one version byte
(`binary.Read` into an int8 — the value is not inspected further), read
exactly IV_SIZE bytes of IV, feed the IV to the HMAC accumulator, run the
peek loop, and finally compare the captured tag with the finalized digest
(`hmac.Equal(mac, h.Sum(nil))`), failing with ErrInvalidHMAC on mismatch.
On success the payload of `.ok` is exactly the plaintext written to `out`
(the source also writes the plaintext before a failing tag comparison;
only the returned value is modelled). -/
def AESCTRDec (ks : Keystream) (hm : Hmac) (s : List Nat) : DecRes :=
  match s with
  | [] => .err .eofVersion
  | _v :: rest =>
    if rest.length < IV_SIZE then .err .eofIV
    else
      let iv := rest.take IV_SIZE
      let body := rest.drop IV_SIZE
      match decLoopAux ks (body.length + 1) 0 body with
      | .err e => .err e
      | .ok ct pt mac => if hm (iv ++ ct) = mac then .ok pt else .err .invalidHMAC

/-! ### Characterization of the two loops -/

/-- With a writer that never fails, the encryption loop appends the
CTR transform of the whole remaining plaintext to both the output and the
HMAC accumulator, whenever the fuel exceeds the plaintext length. -/
theorem encLoopAux_noFail (ks : Keystream) : ∀ (fuel off : Nat) (p : List Nat)
    (st : EncState), p.length < fuel →
    (encLoopAux ks noFail fuel off p st).out = st.out ++ ctrXor ks off p ∧
    (encLoopAux ks noFail fuel off p st).hacc = st.hacc ++ ctrXor ks off p := by
  intro fuel
  induction fuel with
  | zero => intro off p st h; omega
  | succ n ih =>
      intro off p st h
      by_cases hp : p.length = 0
      · have : p = [] := List.eq_nil_of_length_eq_zero hp
        subst this
        simp [encLoopAux, ctrXor]
      · have hlt : (p.drop BUFFER_SIZE).length < n := by
          have := List.length_drop BUFFER_SIZE p
          have hB : 0 < BUFFER_SIZE := by decide
          omega
        have hrec := ih (off + (p.take BUFFER_SIZE).length) (p.drop BUFFER_SIZE)
          (writeMulti noFail st (ctrXor ks off (p.take BUFFER_SIZE))) hlt
        have hsplit : ctrXor ks off p
            = ctrXor ks off (p.take BUFFER_SIZE)
              ++ ctrXor ks (off + (p.take BUFFER_SIZE).length) (p.drop BUFFER_SIZE) := by
          conv_lhs => rw [← List.take_append_drop BUFFER_SIZE p]
          exact ctrXor_append ks off _ _
        simp only [encLoopAux, if_neg hp]
        rw [hrec.1, hrec.2]
        simp [writeMulti, noFail, hsplit, List.append_assoc]

/-- Unfolding of a fully successful encryption: version byte, IV,
ciphertext, then the digest of IV-followed-by-ciphertext. -/
theorem encOut_eq (ks : Keystream) (hm : Hmac) (iv p : List Nat) :
    encOut ks hm iv p
      = V1 :: (iv ++ ctrXor ks 0 p ++ hm (iv ++ ctrXor ks 0 p)) := by
  have hloop := encLoopAux_noFail ks (p.length + 1) 0 p
    (writeMulti noFail (writeOut noFail ⟨[], [], 0⟩ [V1]) iv) (by omega)
  show (writeOut noFail (encLoopAux ks noFail (p.length + 1) 0 p
      (writeMulti noFail (writeOut noFail ⟨[], [], 0⟩ [V1]) iv))
      (hm (encLoopAux ks noFail (p.length + 1) 0 p
        (writeMulti noFail (writeOut noFail ⟨[], [], 0⟩ [V1]) iv)).hacc)).out = _
  rw [writeOut]
  simp only [noFail, if_neg (by simp : ¬ (false = true))]
  rw [hloop.1, hloop.2]
  simp [writeMulti, writeOut, noFail]

/-- When at least HMAC_SIZE bytes remain and the fuel exceeds the remaining
length, the decryption loop consumes everything but the trailing
HMAC_SIZE bytes as ciphertext, emits its CTR transform, and captures the
trailing HMAC_SIZE bytes as the tag. -/
theorem decLoopAux_spec (ks : Keystream) : ∀ (fuel off : Nat) (r : List Nat),
    r.length < fuel → HMAC_SIZE ≤ r.length →
    decLoopAux ks fuel off r
      = .ok (r.take (r.length - HMAC_SIZE))
          (ctrXor ks off (r.take (r.length - HMAC_SIZE)))
          (r.drop (r.length - HMAC_SIZE)) := by
  intro fuel
  induction fuel with
  | zero => intro off r h; omega
  | succ n ih =>
      intro off r hfuel hlen
      by_cases hB : r.length < BUFFER_SIZE
      · simp only [decLoopAux, if_pos hB, if_neg (by omega : ¬ r.length < HMAC_SIZE)]
      · have hBS : (BUFFER_SIZE - HMAC_SIZE) ≤ r.length - HMAC_SIZE := by
          simp only [BUFFER_SIZE, HMAC_SIZE] at *
          omega
        have hdlen : (r.drop (BUFFER_SIZE - HMAC_SIZE)).length
            = r.length - (BUFFER_SIZE - HMAC_SIZE) := List.length_drop _ _
        have hrec := ih (off + (BUFFER_SIZE - HMAC_SIZE)) (r.drop (BUFFER_SIZE - HMAC_SIZE))
          (by simp only [BUFFER_SIZE, HMAC_SIZE] at *; omega)
          (by simp only [BUFFER_SIZE, HMAC_SIZE] at *; omega)
        simp only [decLoopAux, if_neg hB, hrec]
        have htk : (r.drop (BUFFER_SIZE - HMAC_SIZE)).length - HMAC_SIZE
            = r.length - (BUFFER_SIZE - HMAC_SIZE) - HMAC_SIZE := by rw [hdlen]
        have harith1 : (BUFFER_SIZE - HMAC_SIZE)
              + (r.length - (BUFFER_SIZE - HMAC_SIZE) - HMAC_SIZE)
            = r.length - HMAC_SIZE := by
          simp only [BUFFER_SIZE, HMAC_SIZE] at hB ⊢
          omega
        have htake : r.take (BUFFER_SIZE - HMAC_SIZE)
              ++ (r.drop (BUFFER_SIZE - HMAC_SIZE)).take
                  (r.length - (BUFFER_SIZE - HMAC_SIZE) - HMAC_SIZE)
            = r.take (r.length - HMAC_SIZE) := by
          rw [← List.take_add, harith1]
        have hdrop : (r.drop (BUFFER_SIZE - HMAC_SIZE)).drop
              (r.length - (BUFFER_SIZE - HMAC_SIZE) - HMAC_SIZE)
            = r.drop (r.length - HMAC_SIZE) := by
          rw [List.drop_drop, harith1]
        have hlt : (r.take (BUFFER_SIZE - HMAC_SIZE)).length = BUFFER_SIZE - HMAC_SIZE := by
          rw [List.length_take]
          simp only [BUFFER_SIZE, HMAC_SIZE] at hB ⊢
          omega
        have hxor : ctrXor ks off (r.take (BUFFER_SIZE - HMAC_SIZE))
              ++ ctrXor ks (off + (BUFFER_SIZE - HMAC_SIZE))
                  ((r.drop (BUFFER_SIZE - HMAC_SIZE)).take
                    (r.length - (BUFFER_SIZE - HMAC_SIZE) - HMAC_SIZE))
            = ctrXor ks off (r.take (r.length - HMAC_SIZE)) := by
          rw [← htake, ctrXor_append, hlt]
        rw [htk, htake, hdrop, hxor]

/-- When fewer than HMAC_SIZE bytes remain after the IV, the decryption
loop fails with the "not enough left" error on its first iteration. -/
theorem decLoopAux_short (ks : Keystream) (fuel off : Nat) (r : List Nat)
    (h : r.length < HMAC_SIZE) (hf : 0 < fuel) :
    decLoopAux ks fuel off r = .err .notEnoughLeft := by
  cases fuel with
  | zero => omega
  | succ n =>
      have hB : r.length < BUFFER_SIZE := by
        simp only [BUFFER_SIZE, HMAC_SIZE] at *; omega
      simp only [decLoopAux, if_pos hB, if_pos h]

/-! ### Claim theorems for the streaming cipher -/

/-- C2: a successful AESCTREnc writes exactly one version byte, then the
16-byte IV, then one ciphertext byte per input byte, then the 64-byte tag
over IV-plus-ciphertext: 1 + 16 + n + 64 bytes in total. -/
theorem aesctr_enc_output_layout (ks : Keystream) (hm : Hmac) (iv p : List Nat)
    (hiv : iv.length = IV_SIZE) (hhm : ∀ d, (hm d).length = HMAC_SIZE) :
    encOut ks hm iv p
      = V1 :: (iv ++ ctrXor ks 0 p ++ hm (iv ++ ctrXor ks 0 p)) ∧
    (encOut ks hm iv p).length = 1 + IV_SIZE + p.length + HMAC_SIZE := by
  refine ⟨encOut_eq ks hm iv p, ?_⟩
  rw [encOut_eq]
  simp only [List.length_cons, List.length_append, ctrXor_length, hiv, hhm]
  omega

/-- C1: decrypting the exact stream a successful encryption produced, with
the same keystream and digest function, returns success with exactly the
original plaintext. -/
theorem aesctr_roundtrip (ks : Keystream) (hm : Hmac) (iv p : List Nat)
    (hiv : iv.length = IV_SIZE) (hhm : ∀ d, (hm d).length = HMAC_SIZE) :
    AESCTRDec ks hm (encOut ks hm iv p) = .ok p := by
  have hClen : (ctrXor ks 0 p).length = p.length := ctrXor_length ks 0 p
  have hTlen : (hm (iv ++ ctrXor ks 0 p)).length = HMAC_SIZE := hhm _
  rw [encOut_eq, List.append_assoc]
  have hbodylen : (ctrXor ks 0 p ++ hm (iv ++ ctrXor ks 0 p)).length
      = p.length + HMAC_SIZE := by
    rw [List.length_append, hClen, hTlen]
  have hrestlen : (iv ++ (ctrXor ks 0 p ++ hm (iv ++ ctrXor ks 0 p))).length
      = IV_SIZE + (p.length + HMAC_SIZE) := by
    rw [List.length_append, hiv, hbodylen]
  simp only [AESCTRDec]
  rw [if_neg (by omega), List.take_left' hiv, List.drop_left' hiv]
  have hspec := decLoopAux_spec ks
    ((ctrXor ks 0 p ++ hm (iv ++ ctrXor ks 0 p)).length + 1) 0
    (ctrXor ks 0 p ++ hm (iv ++ ctrXor ks 0 p)) (by omega) (by omega)
  rw [hspec]
  have hct : (ctrXor ks 0 p).length
      = (ctrXor ks 0 p ++ hm (iv ++ ctrXor ks 0 p)).length - HMAC_SIZE := by
    omega
  rw [List.take_left' hct, List.drop_left' hct, ctrXor_ctrXor ks 0 p]
  simp

/-- IV region of a decryption input, after the leading version byte. -/
def streamIV (rest : List Nat) : List Nat := rest.take IV_SIZE

/-- Ciphertext region of a decryption input: everything between the IV and
the trailing HMAC_SIZE bytes. -/
def streamCt (rest : List Nat) : List Nat :=
  (rest.drop IV_SIZE).take ((rest.drop IV_SIZE).length - HMAC_SIZE)

/-- Captured trailing tag of a decryption input: its last HMAC_SIZE bytes. -/
def streamTag (rest : List Nat) : List Nat :=
  (rest.drop IV_SIZE).drop ((rest.drop IV_SIZE).length - HMAC_SIZE)

/-- C3: on a stream with at least HMAC_SIZE bytes after the IV, AESCTRDec
succeeds exactly when the trailing 64-byte tag equals the digest of the IV
followed by the ciphertext bytes, and a mismatch yields ErrInvalidHMAC. -/
theorem aesctr_dec_tag_iff (ks : Keystream) (hm : Hmac) (v : Nat) (rest : List Nat)
    (h1 : IV_SIZE ≤ rest.length) (h2 : HMAC_SIZE ≤ rest.length - IV_SIZE) :
    ((∃ pt, AESCTRDec ks hm (v :: rest) = .ok pt)
        ↔ hm (streamIV rest ++ streamCt rest) = streamTag rest)
    ∧ (hm (streamIV rest ++ streamCt rest) ≠ streamTag rest
        → AESCTRDec ks hm (v :: rest) = .err .invalidHMAC) := by
  have hdlen : (rest.drop IV_SIZE).length = rest.length - IV_SIZE :=
    List.length_drop _ _
  have hspec := decLoopAux_spec ks ((rest.drop IV_SIZE).length + 1) 0
    (rest.drop IV_SIZE) (by omega) (by omega)
  have hred : AESCTRDec ks hm (v :: rest)
      = if hm (streamIV rest ++ streamCt rest) = streamTag rest
        then .ok (ctrXor ks 0 (streamCt rest)) else .err .invalidHMAC := by
    simp only [AESCTRDec]
    rw [if_neg (by omega), hspec]
    simp only [streamIV, streamCt, streamTag, hdlen]
  constructor
  · constructor
    · rintro ⟨pt, hpt⟩
      by_contra hne
      rw [hred, if_neg hne] at hpt
      exact absurd hpt (by simp)
    · intro hEq
      exact ⟨_, by rw [hred, if_pos hEq]⟩
  · intro hne
    rw [hred, if_neg hne]

/-- C5: a stream whose body after the IV is shorter than the 64-byte tag
fails with the distinct malformed-stream error ("not enough left"), which
is not the integrity error; the total model terminates on every input. -/
theorem aesctr_dec_truncated (ks : Keystream) (hm : Hmac) (v : Nat) (rest : List Nat)
    (h1 : IV_SIZE ≤ rest.length) (h2 : rest.length - IV_SIZE < HMAC_SIZE) :
    AESCTRDec ks hm (v :: rest) = .err .notEnoughLeft ∧
    DecErr.notEnoughLeft ≠ DecErr.invalidHMAC := by
  constructor
  · have hdlen : (rest.drop IV_SIZE).length = rest.length - IV_SIZE :=
      List.length_drop _ _
    have hshort := decLoopAux_short ks ((rest.drop IV_SIZE).length + 1) 0
      (rest.drop IV_SIZE) (by omega) (by omega)
    simp only [AESCTRDec]
    rw [if_neg (by omega), hshort]
  · decide

/-- C4 (amended): AESCTRDec reads and discards the version byte without
validating it — the result never depends on the version byte's value —
and the only failure tied to the version read is an empty stream. -/
theorem aesctr_dec_version_ignored (ks : Keystream) (hm : Hmac) (v : Nat)
    (rest : List Nat) :
    AESCTRDec ks hm (v :: rest) = AESCTRDec ks hm (V1 :: rest) ∧
    AESCTRDec ks hm [] = .err .eofVersion :=
  ⟨rfl, rfl⟩

/-- C6 (amended): AESCTREnc never surfaces a write error: whatever the
write-failure pattern of the output stream, the returned error is `none`,
because the source discards every `Write` result and ends with
`return nil`. -/
theorem aesctr_enc_write_err_ignored (ks : Keystream) (hm : Hmac)
    (failAt : Nat → Bool) (iv p : List Nat) :
    (AESCTREnc ks hm failAt iv p).2 = none := rfl

/-! ### Concrete instances for witnesses and counterexamples -/

/-- Concrete keystream for witnesses. -/
def ks0 : Keystream := fun i => (i + 1) % 256

/-- Concrete digest function for witnesses: HMAC_SIZE copies of the byte
sum of the input. -/
def hm0 : Hmac := fun d => List.replicate HMAC_SIZE (d.foldl (· + ·) 0 % 256)

/-- Concrete IV for witnesses. -/
def iv0 : List Nat := List.replicate IV_SIZE 0

theorem aesctr_roundtrip_witness :
    iv0.length = IV_SIZE ∧
    AESCTRDec ks0 hm0 (encOut ks0 hm0 iv0 [104, 101, 108, 108, 111])
      = .ok [104, 101, 108, 108, 111] :=
  ⟨by decide,
   aesctr_roundtrip ks0 hm0 iv0 [104, 101, 108, 108, 111] (by decide)
     (fun d => by simp [hm0])⟩

theorem aesctr_enc_output_layout_witness :
    iv0.length = IV_SIZE ∧
    (encOut ks0 hm0 iv0 [104, 101, 108, 108, 111]).length
      = 1 + IV_SIZE + 5 + HMAC_SIZE ∧
    (encOut ks0 hm0 iv0 []).length = 1 + IV_SIZE + 0 + HMAC_SIZE :=
  ⟨by decide,
   (aesctr_enc_output_layout ks0 hm0 iv0 [104, 101, 108, 108, 111] (by decide)
     (fun d => by simp [hm0])).2,
   (aesctr_enc_output_layout ks0 hm0 iv0 [] (by decide)
     (fun d => by simp [hm0])).2⟩

theorem aesctr_dec_tag_iff_witness :
    IV_SIZE ≤ (List.replicate 80 0).length ∧
    HMAC_SIZE ≤ (List.replicate 80 0).length - IV_SIZE ∧
    (((∃ pt, AESCTRDec ks0 hm0 (1 :: List.replicate 80 0) = .ok pt)
        ↔ hm0 (streamIV (List.replicate 80 0) ++ streamCt (List.replicate 80 0))
            = streamTag (List.replicate 80 0))
      ∧ (hm0 (streamIV (List.replicate 80 0) ++ streamCt (List.replicate 80 0))
            ≠ streamTag (List.replicate 80 0)
          → AESCTRDec ks0 hm0 (1 :: List.replicate 80 0) = .err .invalidHMAC)) :=
  ⟨by decide, by decide,
   aesctr_dec_tag_iff ks0 hm0 1 (List.replicate 80 0) (by decide) (by decide)⟩

theorem aesctr_dec_truncated_witness :
    IV_SIZE ≤ (List.replicate 20 0).length ∧
    (List.replicate 20 0).length - IV_SIZE < HMAC_SIZE ∧
    (AESCTRDec ks0 hm0 (1 :: List.replicate 20 0) = .err .notEnoughLeft ∧
      DecErr.notEnoughLeft ≠ DecErr.invalidHMAC) :=
  ⟨by decide, by decide,
   aesctr_dec_truncated ks0 hm0 1 (List.replicate 20 0) (by decide) (by decide)⟩

/-- C4 (counterexample): a stream whose leading byte is 255 — not the V1
tag the encryptor writes — is decrypted to success, with no error, when
its tag matches; the version byte is never validated. -/
theorem aesctr_dec_version_counterexample :
    (255 : Nat) ≠ V1 ∧
    AESCTRDec ks0 hm0 (255 :: List.replicate 80 0) = .ok [] := by
  decide

/-- C6 (counterexample): an encryption during which every write to the
output fails — nothing at all reaches the output — still returns no
error; the write failures are silently swallowed. -/
theorem aesctr_enc_write_err_counterexample :
    (fun _ : Nat => true) 0 = true ∧
    (AESCTREnc ks0 hm0 (fun _ => true) iv0 [1, 2, 3]).1.out = [] ∧
    (AESCTREnc ks0 hm0 (fun _ => true) iv0 [1, 2, 3]).2 = none := by
  decide

/-! ### File-level RSA envelope operations (src/unnamed/part_000)

Filenames are byte lists (Go strings are byte strings).  The filesystem is
modelled as the set of existing file names; file contents are not needed
by the claims about these functions.  The external collaborators
(`ioutil.ReadFile` on the key file, `os.Open`, `os.Create`,
`rsa.RSAEncrypt`/`rsa.RSADecrypt`, `suite.StreamEnc`/`suite.StreamDec`)
are abstracted as Boolean success oracles, mirroring only the error
checks the source performs on them. -/

def sktExtB : List Nat := [46, 115, 107, 116]

abbrev FS := List (List Nat)

/-- Test `path.Ext(filepath) == sktExt`: the name ends in ".skt". -/
def sktCheck (p : List Nat) : Bool := p.drop (p.length - sktExtB.length) == sktExtB

/-- Effect of `os.Create(n)` on the set of existing files. -/
def addFile (fs : FS) (n : List Nat) : FS := if n ∈ fs then fs else n :: fs

/-- Effect of `os.Remove(n)` on the set of existing files. -/
def removeFile (fs : FS) (n : List Nat) : FS := fs.filter (fun m => m != n)

inductive KitErr where
  | readKey
  | openSrc
  | createDest
  | versionMismatch
  | rsaWrap
  | rsaUnwrap
  | streamFail
deriving DecidableEq

/-- RSAFileEncrypt of part_000: read the public key file, skip files that
already carry the .skt extension, open the source and create the
destination `filepath + ".skt"`, wrap a random passphrase with RSA —
returning on failure WITHOUT removing the destination — then stream-encrypt,
removing the destination only when the stream step fails, and finally
delete the source when asked to. -/
def RSAFileEncrypt (readKeyOk openOk createOk rsaOk streamOk : Bool)
    (fs : FS) (filepath : List Nat) (delete : Bool) : FS × Option KitErr :=
  if readKeyOk = false then (fs, some .readKey)
  else if sktCheck filepath then (fs, none)
  else if openOk = false then (fs, some .openSrc)
  else if createOk = false then (fs, some .createDest)
  else
    let dest := filepath ++ sktExtB
    let fs1 := addFile fs dest
    if rsaOk = false then (fs1, some .rsaWrap)
    else if streamOk = false then (removeFile fs1 dest, some .streamFail)
    else (if delete then removeFile fs1 filepath else fs1, none)

/-- RSAFileDecrypt of part_000: read the private key file, skip files
without the .skt extension, open the source, check the SKTRSAVersion
header, create the destination (the name with ".skt" trimmed), unwrap
the passphrase with RSA — returning on failure WITHOUT removing the
destination — then stream-decrypt, removing the destination only when
the stream step fails, and finally delete the source when asked to. -/
def RSAFileDecrypt (readKeyOk openOk versionOk createOk unwrapOk streamOk : Bool)
    (fs : FS) (filepath : List Nat) (delete : Bool) : FS × Option KitErr :=
  if readKeyOk = false then (fs, some .readKey)
  else if sktCheck filepath = false then (fs, none)
  else if openOk = false then (fs, some .openSrc)
  else if versionOk = false then (fs, some .versionMismatch)
  else if createOk = false then (fs, some .createDest)
  else
    let dest := filepath.take (filepath.length - sktExtB.length)
    let fs1 := addFile fs dest
    if unwrapOk = false then (fs1, some .rsaUnwrap)
    else if streamOk = false then (removeFile fs1 dest, some .streamFail)
    else (if delete then removeFile fs1 filepath else fs1, none)

/-- C7 (bug exhibit): encrypting the file "a" when RSA wrapping of the
random passphrase fails returns the error but leaves the freshly created
destination "a.skt" on disk, and decrypting "a.skt" when RSA unwrapping
fails returns the error but leaves the freshly created destination "a" on
disk — the deletion the spec requires does not happen on these paths. -/
theorem rsa_file_dest_left_on_failure :
    ((RSAFileEncrypt true true true false true [[97]] [97] false).2
        = some KitErr.rsaWrap ∧
      ([97] ++ sktExtB) ∈ (RSAFileEncrypt true true true false true [[97]] [97] false).1 ∧
      ([97] ++ sktExtB) ∉ ([[97]] : FS)) ∧
    ((RSAFileDecrypt true true true true false true [[97] ++ sktExtB]
        ([97] ++ sktExtB) false).2 = some KitErr.rsaUnwrap ∧
      [97] ∈ (RSAFileDecrypt true true true true false true [[97] ++ sktExtB]
        ([97] ++ sktExtB) false).1 ∧
      [97] ∉ ([[97] ++ sktExtB] : FS)) := by
  decide

/-! ### Algorithm suite dispatcher (src/kit/suite/suit.go)

SHA-256, the RC4 keystream transform, the KDF, and the GCM and CTR
constructions live in packages outside the embedded sources and are
abstracted as function parameters.  `src.Read(buf)` into a zero-filled
buffer of length n delivers the first `min n available` bytes and leaves
the remaining buffer bytes zero, and returns an error only at immediate
end-of-stream; `padTo` models the partially filled buffer. -/

inductive Algorithm where
  | RC4
  | RSA
  | Aes256Gcm
  | Aes256Ctr
deriving DecidableEq

inductive SuiteErr where
  | unsupportedAlgo
  | wrongPassphrase
  | readFail
  | decryptFail
deriving DecidableEq

inductive SuiteRes where
  | ok : List Nat → SuiteRes
  | err : SuiteErr → SuiteRes
deriving DecidableEq

def sha256Size : Nat := 32

/-- Modelled from the spec: `key.SaltLen` of the kit/key package is not
among the embedded sources; §3 of the spec fixes the salt as a
fixed-length public byte sequence of e.g. 16 bytes. -/
def SaltLen : Nat := 16

/-- Buffer of length n after a single partial `Read`: the delivered bytes
followed by the zeroes `make([]byte, n)` initialized. -/
def padTo (n : Nat) (l : List Nat) : List Nat := l ++ List.replicate (n - l.length) 0

/-- StreamEncrypt of suit.go.  `salt` is the random salt DeriveKey
generates for the AES-256-CTR path; `ctrEnc key plaintext` the CTR
construction; `sha` SHA-256; `rc4ks pass body` the RC4 keystream
transform. -/
def StreamEncrypt (sha : List Nat → List Nat) (rc4ks : List Nat → List Nat → List Nat)
    (dk : List Nat → List Nat → List Nat) (salt : List Nat)
    (ctrEnc : List Nat → List Nat → List Nat)
    (pass p : List Nat) (alg : Algorithm) : SuiteRes :=
  match alg with
  | .Aes256Ctr => .ok (salt ++ ctrEnc (dk pass salt) p)
  | .RC4 => .ok (sha pass ++ rc4ks pass p)
  | _ => .err .unsupportedAlgo

/-- StreamDecrypt of suit.go: the AES-256-CTR arm reads the salt and
delegates to the CTR construction; the RC4 arm reads a SHA-256-sized tag,
compares it with the SHA-256 hash of the passphrase, fails with "wrong
passphrase" on mismatch, and only on a match feeds the remaining body to
the RC4 keystream. -/
def StreamDecrypt (sha : List Nat → List Nat) (rc4ks : List Nat → List Nat → List Nat)
    (dk : List Nat → List Nat → List Nat)
    (ctrDec : List Nat → List Nat → SuiteRes)
    (pass s : List Nat) (alg : Algorithm) : SuiteRes :=
  match alg with
  | .Aes256Ctr =>
      if s.length = 0 then .err .readFail
      else ctrDec (dk pass (padTo SaltLen (s.take SaltLen))) (s.drop SaltLen)
  | .RC4 =>
      if s.length = 0 then .err .readFail
      else if sha pass = padTo sha256Size (s.take sha256Size)
        then .ok (rc4ks pass (s.drop sha256Size))
      else .err .wrongPassphrase
  | _ => .err .unsupportedAlgo

/-- C8: the legacy RC4 arm of StreamDecrypt first reads a SHA-256-length
tag and compares it with SHA-256 of the passphrase: a mismatch fails with
"wrong passphrase" and no body byte is processed, a match decrypts
exactly the remaining body; StreamEncrypt writes that tag up front, so
decrypting its output with the same passphrase processes exactly the
encrypted body. -/
theorem stream_rc4_tag_check (sha : List Nat → List Nat)
    (rc4ks : List Nat → List Nat → List Nat) (dk : List Nat → List Nat → List Nat)
    (ctrDec : List Nat → List Nat → SuiteRes) (pass s p salt : List Nat)
    (ctrEnc : List Nat → List Nat → List Nat)
    (hs : s ≠ []) (hsha : (sha pass).length = sha256Size) :
    (sha pass ≠ padTo sha256Size (s.take sha256Size) →
        StreamDecrypt sha rc4ks dk ctrDec pass s .RC4 = .err .wrongPassphrase) ∧
    (sha pass = padTo sha256Size (s.take sha256Size) →
        StreamDecrypt sha rc4ks dk ctrDec pass s .RC4
          = .ok (rc4ks pass (s.drop sha256Size))) ∧
    StreamEncrypt sha rc4ks dk salt ctrEnc pass p .RC4
      = .ok (sha pass ++ rc4ks pass p) ∧
    StreamDecrypt sha rc4ks dk ctrDec pass (sha pass ++ rc4ks pass p) .RC4
      = .ok (rc4ks pass (rc4ks pass p)) := by
  have hlen : s.length ≠ 0 := fun h => hs (List.eq_nil_of_length_eq_zero h)
  refine ⟨?_, ?_, rfl, ?_⟩
  · intro hne
    simp only [StreamDecrypt]
    rw [if_neg hlen, if_neg hne]
  · intro hEq
    simp only [StreamDecrypt]
    rw [if_neg hlen, if_pos hEq]
  · have henclen : (sha pass ++ rc4ks pass p).length ≠ 0 := by
      rw [List.length_append, hsha]
      simp [sha256Size]
    have htake : (sha pass ++ rc4ks pass p).take sha256Size = sha pass :=
      List.take_left' hsha
    have hpad : padTo sha256Size (sha pass) = sha pass := by
      rw [padTo, hsha]
      simp
    have hdrop : (sha pass ++ rc4ks pass p).drop sha256Size = rc4ks pass p :=
      List.drop_left' hsha
    simp only [StreamDecrypt]
    rw [if_neg henclen, htake, hpad, if_pos rfl, hdrop]

def sha0 : List Nat → List Nat :=
  fun d => List.replicate sha256Size (d.foldl (· + ·) 0 % 256)

def rc4ks0 : List Nat → List Nat → List Nat :=
  fun pass s => s.map (fun b => (b + pass.length) % 256)

def dk0 : List Nat → List Nat → List Nat := fun pass salt => padTo 32 (pass ++ salt)

def ctrDec0 : List Nat → List Nat → SuiteRes := fun _ s => .ok s

theorem stream_rc4_tag_check_witness :
    ([9] : List Nat) ≠ [] ∧ (sha0 [5]).length = sha256Size ∧
    ((sha0 [5] ≠ padTo sha256Size (([9] : List Nat).take sha256Size) →
        StreamDecrypt sha0 rc4ks0 dk0 ctrDec0 [5] [9] .RC4
          = .err .wrongPassphrase) ∧
      (sha0 [5] = padTo sha256Size (([9] : List Nat).take sha256Size) →
        StreamDecrypt sha0 rc4ks0 dk0 ctrDec0 [5] [9] .RC4
          = .ok (rc4ks0 [5] (([9] : List Nat).drop sha256Size))) ∧
      StreamEncrypt sha0 rc4ks0 dk0 [] (fun _ x => x) [5] [7] .RC4
        = .ok (sha0 [5] ++ rc4ks0 [5] [7]) ∧
      StreamDecrypt sha0 rc4ks0 dk0 ctrDec0 [5] (sha0 [5] ++ rc4ks0 [5] [7]) .RC4
        = .ok (rc4ks0 [5] (rc4ks0 [5] [7]))) :=
  ⟨by decide, by decide,
   stream_rc4_tag_check sha0 rc4ks0 dk0 ctrDec0 [5] [9] [7] [] (fun _ x => x)
     (by decide) (by decide)⟩

/-! ### BlockDecrypt (src/kit/suite/suit.go lines 43-56) -/

inductive BlockRes where
  | ok : List Nat → BlockRes
  | err : SuiteErr → BlockRes
  | outOfRange : BlockRes
deriving DecidableEq

/-- BlockDecrypt of suit.go: the AES-256-GCM arm evaluates
`ciphertext[len(ciphertext)-key.SaltLen:]` first; when the ciphertext is
shorter than SaltLen the slice lower bound is negative and the Go runtime
panics with a slice-bounds-out-of-range error (`.outOfRange` in the
model); otherwise the trailing salt is split off, a key derived, and the
GCM construction applied to the rest. -/
def BlockDecrypt (dk : List Nat → List Nat → List Nat)
    (gcmDec : List Nat → List Nat → List Nat → Option (List Nat))
    (ciphertext pass : List Nat) (alg : Algorithm) : BlockRes :=
  match alg with
  | .Aes256Gcm =>
    if ciphertext.length < SaltLen then .outOfRange
    else
      let salt := ciphertext.drop (ciphertext.length - SaltLen)
      match gcmDec (ciphertext.take (ciphertext.length - SaltLen)) (dk pass salt) salt with
      | some pt => .ok pt
      | none => .err .decryptFail
  | _ => .err .unsupportedAlgo

/-- C10: on a ciphertext shorter than the salt length, BlockDecrypt with
algorithm Aes256Gcm hits the unguarded slice and panics — its result is
the out-of-range runtime fault and not an error value of the function's
error branch. -/
theorem blockdecrypt_short_input_panics (dk : List Nat → List Nat → List Nat)
    (gcmDec : List Nat → List Nat → List Nat → Option (List Nat))
    (ciphertext pass : List Nat) (h : ciphertext.length < SaltLen) :
    BlockDecrypt dk gcmDec ciphertext pass .Aes256Gcm = .outOfRange ∧
    (∀ e, BlockDecrypt dk gcmDec ciphertext pass .Aes256Gcm ≠ .err e) ∧
    (∀ pt, BlockDecrypt dk gcmDec ciphertext pass .Aes256Gcm ≠ .ok pt) := by
  have hred : BlockDecrypt dk gcmDec ciphertext pass .Aes256Gcm = .outOfRange := by
    simp only [BlockDecrypt]
    rw [if_pos h]
  refine ⟨hred, ?_, ?_⟩
  · intro e
    rw [hred]
    simp
  · intro pt
    rw [hred]
    simp

def gcm0 : List Nat → List Nat → List Nat → Option (List Nat) := fun _ _ _ => some []

theorem blockdecrypt_short_input_panics_witness :
    ([1, 2, 3] : List Nat).length < SaltLen ∧
    (BlockDecrypt dk0 gcm0 [1, 2, 3] [5] .Aes256Gcm = .outOfRange ∧
      (∀ e, BlockDecrypt dk0 gcm0 [1, 2, 3] [5] .Aes256Gcm ≠ .err e) ∧
      (∀ pt, BlockDecrypt dk0 gcm0 [1, 2, 3] [5] .Aes256Gcm ≠ .ok pt)) :=
  ⟨by decide, blockdecrypt_short_input_panics dk0 gcm0 [1, 2, 3] [5] (by decide)⟩

/-! ### Obfuscated rename ledger (src/kit/rnm.go)

Paths and stored values are byte lists; `/` is byte 47.  base64 decoding,
the KDF and the GCM construction are external and abstracted as
parameters; `os.Rename` as a success oracle.  The key-value store
(kit/kvdb, not among the embedded sources) is modelled from the spec:
§6's store interface: `Get(key) → (value, found)`, `Set`, and
`Delete(key)` removing the entry for the key. -/

def rnmTagB : List Nat := [83, 75, 84, 82, 78, 77, 86, 49]

/-- Test `strings.HasPrefix(name, tag)` on byte lists. -/
def hasTag : List Nat → List Nat → Bool
  | [], _ => true
  | _ :: _, [] => false
  | t :: ts, c :: cs => (t == c) && hasTag ts cs

/-- Component after the last separator, as `path.Name` (filepath.Base)
produces for the slash-free ledger ids the package generates. -/
def baseName (p : List Nat) : List Nat :=
  p.foldl (fun acc c => if c == 47 then [] else acc ++ [c]) []

/-- Everything up to and including the last separator (`path.BasePath`). -/
def basePath (p : List Nat) : List Nat := p.take (p.length - (baseName p).length)

abbrev DB := List (List Nat × List Nat)

/-- Modelled from the spec: `Get(key) → (value, found)` of the store
interface (§6); first binding of the key. -/
def dbGet (k : List Nat) : DB → Option (List Nat)
  | [] => none
  | e :: es => if e.1 = k then some e.2 else dbGet k es

/-- Modelled from the spec: `Delete(key)` of the store interface (§6)
removes the entry for the key. -/
def dbDelete (k : List Nat) (db : DB) : DB := db.filter (fun e => e.1 != k)

inductive RnmErr where
  | decodeFail
  | outOfRange
  | decryptFail
  | renameFail
  | idNotFound
deriving DecidableEq

structure RnmOut where
  db : DB
  renamedTo : Option (List Nat)
  er : Option RnmErr
deriving DecidableEq

/-- Recover of rnm.go: a source whose base name does not carry the
SKTRNMV1 tag is a no-op; otherwise the id is looked up in the store —
absence is the "ID not found in Database" error — the stored value is
base64-decoded, the salt is the ciphertext's trailing SaltLen bytes
(`ciphertext[len(ciphertext)-SaltLen:]`, a runtime panic when the
ciphertext is shorter), a key is derived from the passphrase and that
salt, the ciphertext is GCM-decrypted, the file is renamed to the
recovered name, and only then is the ledger entry deleted. -/
def Recover (b64dec : List Nat → Option (List Nat))
    (dk : List Nat → List Nat → List Nat)
    (gcmDec : List Nat → List Nat → List Nat → Option (List Nat))
    (renameOk : Bool)
    (source pass : List Nat) (db : DB) : RnmOut :=
  let id := baseName source
  if hasTag rnmTagB id = false then ⟨db, none, none⟩
  else
    match dbGet id db with
    | some fileName =>
      match b64dec fileName with
      | none => ⟨db, none, some .decodeFail⟩
      | some ciphertext =>
        if ciphertext.length < SaltLen then ⟨db, none, some .outOfRange⟩
        else
          let salt := ciphertext.drop (ciphertext.length - SaltLen)
          match gcmDec ciphertext (dk pass salt) salt with
          | none => ⟨db, none, some .decryptFail⟩
          | some plaintext =>
            if renameOk then ⟨dbDelete id db, some (basePath source ++ plaintext), none⟩
            else ⟨db, none, some .renameFail⟩
    | none => ⟨db, none, some .idNotFound⟩

theorem dbGet_dbDelete (k : List Nat) (db : DB) : dbGet k (dbDelete k db) = none := by
  induction db with
  | nil => rfl
  | cons e es ih =>
      by_cases h : e.1 = k
      · simp only [dbDelete, List.filter]
        rw [show (e.1 != k) = false by simp [h]]
        exact ih
      · simp only [dbDelete, List.filter]
        rw [show (e.1 != k) = true by simp [h]]
        simp only [dbGet, if_neg h]
        exact ih

/-- C9: for a source whose base name carries the SKTRNMV1 tag, Recover
fails with the "ID not found in Database" error when the id has no ledger
entry, and when lookup, decoding, decryption and the rename all succeed
it returns no error and deletes the ledger entry of the id from the
store. -/
theorem rnm_recover_ledger (b64dec : List Nat → Option (List Nat))
    (dk : List Nat → List Nat → List Nat)
    (gcmDec : List Nat → List Nat → List Nat → Option (List Nat))
    (source pass : List Nat) (db : DB)
    (hTag : hasTag rnmTagB (baseName source) = true) :
    (dbGet (baseName source) db = none →
      Recover b64dec dk gcmDec true source pass db
        = ⟨db, none, some .idNotFound⟩) ∧
    (∀ fn ct pt, dbGet (baseName source) db = some fn → b64dec fn = some ct →
      SaltLen ≤ ct.length →
      gcmDec ct (dk pass (ct.drop (ct.length - SaltLen)))
        (ct.drop (ct.length - SaltLen)) = some pt →
      (Recover b64dec dk gcmDec true source pass db).db
          = dbDelete (baseName source) db ∧
        dbGet (baseName source) (Recover b64dec dk gcmDec true source pass db).db
          = none ∧
        (Recover b64dec dk gcmDec true source pass db).er = none) := by
  have hTagNe : hasTag rnmTagB (baseName source) ≠ false := by
    rw [hTag]
    simp
  constructor
  · intro hnone
    simp only [Recover]
    rw [if_neg hTagNe, hnone]
  · intro fn ct pt hfn hct hlen hgcm
    have hred : Recover b64dec dk gcmDec true source pass db
        = ⟨dbDelete (baseName source) db,
            some (basePath source
              ++ pt), none⟩ := by
      simp only [Recover]
      rw [if_neg hTagNe, hfn]
      simp only [hct]
      rw [if_neg (show ¬ ct.length < SaltLen by omega)]
      simp only [hgcm]
      simp
    rw [hred]
    exact ⟨rfl, dbGet_dbDelete _ _, rfl⟩

def b64dec0 : List Nat → Option (List Nat) := fun _ => some (List.replicate 20 1)

def gcm1 : List Nat → List Nat → List Nat → Option (List Nat) := fun _ _ _ => some [104]

theorem rnm_recover_ledger_witness :
    hasTag rnmTagB (baseName (rnmTagB ++ [97])) = true ∧
    ((dbGet (baseName (rnmTagB ++ [97])) [(rnmTagB ++ [97], [99])] = none →
        Recover b64dec0 dk0 gcm1 true (rnmTagB ++ [97]) [5] [(rnmTagB ++ [97], [99])]
          = ⟨[(rnmTagB ++ [97], [99])], none, some .idNotFound⟩) ∧
      (∀ fn ct pt,
        dbGet (baseName (rnmTagB ++ [97])) [(rnmTagB ++ [97], [99])] = some fn →
        b64dec0 fn = some ct → SaltLen ≤ ct.length →
        gcm1 ct (dk0 [5] (ct.drop (ct.length - SaltLen)))
          (ct.drop (ct.length - SaltLen)) = some pt →
        (Recover b64dec0 dk0 gcm1 true (rnmTagB ++ [97]) [5]
            [(rnmTagB ++ [97], [99])]).db
            = dbDelete (baseName (rnmTagB ++ [97])) [(rnmTagB ++ [97], [99])] ∧
          dbGet (baseName (rnmTagB ++ [97]))
            (Recover b64dec0 dk0 gcm1 true (rnmTagB ++ [97]) [5]
              [(rnmTagB ++ [97], [99])]).db = none ∧
          (Recover b64dec0 dk0 gcm1 true (rnmTagB ++ [97]) [5]
            [(rnmTagB ++ [97], [99])]).er = none)) :=
  ⟨by decide,
   rnm_recover_ledger b64dec0 dk0 gcm1 (rnmTagB ++ [97]) [5]
     [(rnmTagB ++ [97], [99])] (by decide)⟩
